import Mathlib

/-!
Verification of the `PromisePool` bounded-concurrency executor from
`packages/promises/src/utils.ts`.

The pool is shallowly embedded as a pure state machine:

* `PoolState` mirrors the private fields of the `PromisePool` class
  (`size`, `currentIndex`, `#enqueued`, `#running`, `result`,
  `#isStarted`, `#isClosed`, `#isResolved`, the promise's settled value,
  and a log of the `#emit` calls).
* Each method of the class (`runNext`, `start`, `enqueue`, `close`,
  `promiseDone`, `promiseRejected`) becomes a pure function on
  `PoolState`, translated branch by branch from the source.
* A task is identified by its admission index; its eventual outcome
  (fulfilment value or rejection cause) is fixed at admission time in
  the `tasks` list.  The environment (the host event loop) is a list of
  `Act` actions: caller calls (`enq`, `start`, `close`) and completion
  deliveries (`complete i`, i.e. the `.then` / `.catch` continuation of
  launched task `i` firing).  Completion deliveries for tasks that are
  not currently running are no-ops, exactly as the
  `indexOf(p) >= 0` guard makes them in the source.
* JavaScript concurrency values are modelled by `Cap`: a finite `Int`
  (the source accepts any number, including non-positive ones) or
  `Number.POSITIVE_INFINITY`.
* The sparse `result` array (`this.result[index] = v` on a JS array)
  is modelled by `List (Option Slot)` together with `setSlot`, which
  pads with holes exactly as JS assignment beyond the length does.
* The per-event listener registry (a JS `Map` from callback to a
  one-shot flag) is modelled by `mapSet` / `emitInvoke` on an
  insertion-ordered association list, callbacks identified by `Nat`.
-/

/-- Eventual outcome of a submitted task: the promise returned by its
generator either fulfils with a value or rejects with a cause.
Values and causes are drawn from `Nat`. -/
inductive TaskOutcome where
  | success (v : Nat)
  | failure (cause : Nat)
  deriving DecidableEq, Repr

/-- A slot of the pool's `result` array: either the fulfilment value
(`this.result[index] = result`) or the `PoolErrorImpl` wrapper whose
`catched` field holds the original rejection cause
(`new PoolErrorImpl(..., error)`). -/
inductive Slot where
  | val (v : Nat)
  | err (cause : Nat)
  deriving DecidableEq, Repr

/-- The slot the source writes for a task with the given outcome:
`promiseDone` stores the value, `promiseRejected` stores the wrapper
around the cause. -/
def slotOf : TaskOutcome → Slot
  | .success v => .val v
  | .failure c => .err c

/-- The `POOL_EVENT_TYPE` union: `"start" | "full" | "next" | "close" |
"available"`.  `closeEv` stands for the `"close"` member. -/
inductive Event where
  | startEv
  | full
  | next
  | closeEv
  | available
  deriving DecidableEq, Repr

/-- Settled state of `#promise`: `#resolve(this.result)` or
`#reject(error)`. -/
inductive PromiseOut where
  | resolved (r : List (Option Slot))
  | rejected (cause : Nat)
  deriving DecidableEq, Repr

/-- A JS concurrency value: any finite number (the source does not
validate it) or `Number.POSITIVE_INFINITY` as used by `parallel`. -/
inductive Cap where
  | fin (m : Int)
  | inf
  deriving DecidableEq, Repr

/-- `this.#running.length < this.size` for a JS number `size`. -/
def capLt (n : Nat) : Cap → Bool
  | .fin m => decide ((n : Int) < m)
  | .inf => true

/-- `this.#running.length == this.size - 1`.  For an infinite `size`,
`Infinity - 1 == Infinity` and the comparison with a finite length is
false. -/
def availCond (n : Nat) : Cap → Bool
  | .fin m => decide ((n : Int) = m - 1)
  | .inf => false

/-- The two admission-guard errors thrown by `enqueue`:
`PromisePool already closed` and `PromisePool already performed`. -/
inductive PoolErr where
  | poolClosed
  | poolSettled
  deriving DecidableEq, Repr

/-- Message of an admission-guard error, as thrown by the source. -/
def PoolErr.message (name : String) : PoolErr → String
  | .poolClosed => "[" ++ name ++ "] PromisePool already closed"
  | .poolSettled => "[" ++ name ++ "] PromisePool already performed"

/-- Sparse-array write `a[i] = some v` on a JS array modelled as a list
with holes: assigning beyond the length first pads with holes
(`undefined` entries), and the length becomes `max (i+1) length`. -/
def setSlot : List (Option Slot) → Nat → Slot → List (Option Slot)
  | [], 0, v => [some v]
  | [], i + 1, v => none :: setSlot [] i v
  | _ :: xs, 0, v => some v :: xs
  | x :: xs, i + 1, v => x :: setSlot xs i v

/-- Read `a[i]` from the sparse array: a hole and an out-of-range read
both give `none`. -/
def slotAt (l : List (Option Slot)) (i : Nat) : Option Slot :=
  (l.get? i).join

/-- The state of one `PromisePool` instance. -/
structure PoolState where
  /-- `this.size`, set once by the constructor. -/
  size : Cap
  /-- resolved value of `this.options?.rejectOnError` (default false). -/
  rejectOnError : Bool
  /-- resolved value of `this.options?.autoStart ?? true`. -/
  autoStart : Bool
  /-- `this.currentIndex`. -/
  currentIndex : Nat
  /-- outcome of task `i`, fixed when its generator is admitted;
  `tasks.length` admissions have happened so far. -/
  tasks : List TaskOutcome
  /-- `this.#enqueued`, as the queued tasks' indices in FIFO order. -/
  enqueued : List Nat
  /-- `this.#running`, as the running tasks' indices in insertion
  order (the source stores the promises; each launch creates a fresh
  promise, so indices identify entries faithfully). -/
  running : List Nat
  /-- `this.result`, the sparse outcome array. -/
  result : List (Option Slot)
  /-- `this.#isStarted`. -/
  isStarted : Bool
  /-- `this.#isClosed`. -/
  isClosed : Bool
  /-- `this.#isResolved`. -/
  isResolved : Bool
  /-- the settled value of `this.#promise`; `none` while pending.
  Settling is write-once, as for a JS promise. -/
  promiseResult : Option PromiseOut
  /-- log of the `#emit` calls made so far, in order. -/
  events : List Event
  deriving DecidableEq, Repr

namespace PromisePool

/-- `#emit(type)`: record the emission in the log. -/
def emit (s : PoolState) (e : Event) : PoolState :=
  { s with events := s.events ++ [e] }

/-- Settle `#promise`: a JS promise ignores `resolve`/`reject` calls
after the first settlement. -/
def settle (s : PoolState) (o : PromiseOut) : PoolState :=
  match s.promiseResult with
  | some _ => s
  | none => { s with promiseResult := some o }

/-- The `while (this.#running.length < this.size && !!this.#enqueued.length)`
loop of `runNext`, abstracted over the queue: given the current running
count `n` and the queue, it returns the (ordered) list of indices
launched by the loop and the remaining queue.  Each iteration shifts
the queue head, starts its generator and pushes the promise, so the
count checked against `size` grows by one per launch. -/
def launchList (size : Cap) : Nat → List Nat → List Nat × List Nat
  | _, [] => ([], [])
  | n, i :: rest =>
    if capLt n size then
      let p := launchList size (n + 1) rest
      (i :: p.1, p.2)
    else ([], i :: rest)

/-- `runNext()`, translated branch by branch.  `p.1` is the list of
tasks launched by the while loop (`added` counts them); launched tasks
move from `#enqueued` to `#running`. -/
def runNext (s : PoolState) : PoolState :=
  if s.isStarted then
    if s.enqueued.isEmpty then
      if s.running.isEmpty then
        if s.isClosed then
          settle { s with isResolved := true } (.resolved s.result)
        else s
      else
        if availCond s.running.length s.size then emit s .available else s
    else
      let p := launchList s.size s.running.length s.enqueued
      let s' := { s with enqueued := p.2, running := s.running ++ p.1 }
      if capLt s'.running.length s'.size then s'
      else if p.1.isEmpty then s'
      else emit s' .full
  else s

/-- `start()`: on the first call, emit `start` and flip `#isStarted`;
always run `runNext`. -/
def start (s : PoolState) : PoolState :=
  runNext (if s.isStarted then s else { emit s .startEv with isStarted := true })

/-- `enqueue(generator)`: throws when closed or settled, otherwise
assigns `currentIndex` to the task, appends it to the queue and starts
or reschedules. -/
def enqueue (s : PoolState) (o : TaskOutcome) : Except PoolErr PoolState :=
  if s.isClosed then .error .poolClosed
  else if s.isResolved then .error .poolSettled
  else
    let s1 := { s with
      tasks := s.tasks ++ [o],
      enqueued := s.enqueued ++ [s.currentIndex],
      currentIndex := s.currentIndex + 1 }
    if s1.autoStart && !s1.isStarted then .ok (start s1)
    else if s1.isStarted then .ok (runNext s1)
    else .ok s1

/-- `close()`: mark closed and trigger `start()`. -/
def close (s : PoolState) : PoolState :=
  start { s with isClosed := true }

/-- `promiseDone(p, result, index)`: ignore when settled or when the
promise is not tracked; otherwise remove it from `#running`, store the
value at its index, emit `next` and reschedule. -/
def promiseDone (s : PoolState) (i : Nat) (v : Nat) : PoolState :=
  if s.isResolved then s
  else if i ∈ s.running then
    runNext (emit { s with
      running := s.running.erase i,
      result := setSlot s.result i (.val v) } .next)
  else s

/-- `promiseRejected(p, error, index)`: ignore when settled or
untracked; otherwise remove from `#running`, store the wrapped cause,
then either settle rejected (fail-fast) or emit `next` and reschedule
(accumulate). -/
def promiseRejected (s : PoolState) (i : Nat) (c : Nat) : PoolState :=
  if s.isResolved then s
  else if i ∈ s.running then
    let s1 := { s with
      running := s.running.erase i,
      result := setSlot s.result i (.err c) }
    if s1.rejectOnError then settle { s1 with isResolved := true } (.rejected c)
    else runNext (emit s1 .next)
  else s

/-- Delivery of launched task `i`'s completion continuation: the
`.then` branch on fulfilment, the `.catch` branch on rejection.  For an
index that was never admitted this is a no-op (no such continuation
exists). -/
def complete (s : PoolState) (i : Nat) : PoolState :=
  match s.tasks.get? i with
  | some (.success v) => promiseDone s i v
  | some (.failure c) => promiseRejected s i c
  | none => s

/-- One step of the host event loop: a caller call or a completion
delivery.  A throwing `enqueue` leaves the pool state untouched (the
guards throw before any mutation). -/
inductive Act where
  | enq (o : TaskOutcome)
  | start
  | close
  | complete (i : Nat)
  deriving DecidableEq, Repr

/-- Run one action. -/
def stepAct (s : PoolState) : Act → PoolState
  | .enq o =>
    match enqueue s o with
    | .ok s' => s'
    | .error _ => s
  | .start => start s
  | .close => close s
  | .complete i => complete s i

/-- Run a sequence of actions. -/
def runActs (s : PoolState) (acts : List Act) : PoolState :=
  acts.foldl stepAct s

/-- `DEFAULT_CONCURRENCY`. -/
def DEFAULT_CONCURRENCY : Int := 10

/-- `options?.concurrency || DEFAULT_CONCURRENCY`: of the numbers, `0`
(and `NaN`, not modelled) are falsy and replaced by the default;
every other number — negative ones included — and `Infinity` are kept. -/
def mkSize : Cap → Cap
  | .fin 0 => .fin DEFAULT_CONCURRENCY
  | c => c

/-- The `PromisePool` constructor: record the options, create the
pending `#promise`.  It validates nothing and never throws. -/
def initPool (c : Cap) (ro auto : Bool) : PoolState :=
  { size := mkSize c
    rejectOnError := ro
    autoStart := auto
    currentIndex := 0
    tasks := []
    enqueued := []
    running := []
    result := []
    isStarted := false
    isClosed := false
    isResolved := false
    promiseResult := none
    events := [] }

/-- The exported `pool(concurrency, options)` helper: just the
constructor. -/
def pool (c : Cap) (ro auto : Bool) : PoolState :=
  initPool c ro auto

end PromisePool

/-!  The per-event listener registry.  `#listeners[type]` is a JS
`Map<() => void, boolean>`: insertion-ordered, keyed by callback
identity, value `true` for `once` registrations.  Callbacks are
identified by `Nat`. -/

namespace Listeners

/-- `Map.prototype.set`: update the value in place when the key is
present (preserving its position), otherwise append a new entry. -/
def mapSet (m : List (Nat × Bool)) (k : Nat) (v : Bool) : List (Nat × Bool) :=
  if m.any (fun p => p.1 == k) then
    m.map (fun p => if p.1 == k then (k, v) else p)
  else m ++ [(k, v)]

/-- `on(type, cb)`: `map.set(cb, false)`. -/
def «on» (m : List (Nat × Bool)) (cb : Nat) : List (Nat × Bool) :=
  mapSet m cb false

/-- `once(type, cb)`: `map.set(cb, true)`. -/
def once (m : List (Nat × Bool)) (cb : Nat) : List (Nat × Bool) :=
  mapSet m cb true

/-- `#emit`'s loop over the map: every entry's callback is invoked (in
insertion order; deleting the current entry during JS `Map` iteration
does not skip the rest), and `once` entries are removed.  Returns the
invoked callbacks in order and the remaining map. -/
def emitInvoke (m : List (Nat × Bool)) : List Nat × List (Nat × Bool) :=
  (m.map Prod.fst, m.filter (fun p => !p.2))

end Listeners

/-! ### Basic lemmas about the sparse result array -/

theorem setSlot_length (l : List (Option Slot)) (i : Nat) (v : Slot) :
    (setSlot l i v).length = max l.length (i + 1) := by
  induction l generalizing i with
  | nil =>
    induction i with
    | zero => simp [setSlot]
    | succ n ih => simp [setSlot, ih]
  | cons x xs ih =>
    cases i with
    | zero => simp [setSlot]
    | succ n => simp [setSlot, ih]; omega

theorem slotAt_setSlot_self (l : List (Option Slot)) (i : Nat) (v : Slot) :
    slotAt (setSlot l i v) i = some v := by
  induction l generalizing i with
  | nil =>
    induction i with
    | zero => simp [setSlot, slotAt]
    | succ n ih => simpa [setSlot, slotAt] using ih
  | cons x xs ih =>
    cases i with
    | zero => simp [setSlot, slotAt]
    | succ n => simpa [setSlot, slotAt] using ih n

theorem slotAt_nil (j : Nat) : slotAt [] j = none := by
  simp [slotAt]

theorem slotAt_setSlot_nil_ne (i : Nat) (v : Slot) {j : Nat} (h : j ≠ i) :
    slotAt (setSlot [] i v) j = none := by
  induction i generalizing j with
  | zero =>
    cases j with
    | zero => exact absurd rfl h
    | succ m => simp [setSlot, slotAt]
  | succ n ih =>
    cases j with
    | zero => simp [setSlot, slotAt]
    | succ m =>
      have := ih (j := m) (by omega)
      simpa [setSlot, slotAt] using this

theorem slotAt_setSlot_ne (l : List (Option Slot)) (i : Nat) (v : Slot)
    {j : Nat} (h : j ≠ i) :
    slotAt (setSlot l i v) j = slotAt l j := by
  induction l generalizing i j with
  | nil => rw [slotAt_setSlot_nil_ne i v h, slotAt_nil]
  | cons x xs ih =>
    cases i with
    | zero =>
      cases j with
      | zero => exact absurd rfl h
      | succ m => simp [setSlot, slotAt]
    | succ n =>
      cases j with
      | zero => simp [setSlot, slotAt]
      | succ m =>
        have := ih (i := n) (j := m) (by omega)
        simpa [setSlot, slotAt] using this

theorem lt_length_of_slotAt_isSome {l : List (Option Slot)} {i : Nat}
    (h : (slotAt l i).isSome = true) : i < l.length := by
  by_contra hlt
  rw [slotAt, List.get?_eq_none.mpr (Nat.le_of_not_lt hlt)] at h
  simp at h

theorem slotAt_none_of_length_le {l : List (Option Slot)} {i : Nat}
    (h : l.length ≤ i) : slotAt l i = none := by
  rw [slotAt, List.get?_eq_none.mpr h]; rfl

namespace PromisePool

/-! ### Field lemmas for `emit` and `settle` -/

section FieldLemmas

variable (s : PoolState) (e : Event) (o : PromiseOut)

@[simp] theorem emit_size : (emit s e).size = s.size := rfl
@[simp] theorem emit_rejectOnError : (emit s e).rejectOnError = s.rejectOnError := rfl
@[simp] theorem emit_autoStart : (emit s e).autoStart = s.autoStart := rfl
@[simp] theorem emit_currentIndex : (emit s e).currentIndex = s.currentIndex := rfl
@[simp] theorem emit_tasks : (emit s e).tasks = s.tasks := rfl
@[simp] theorem emit_enqueued : (emit s e).enqueued = s.enqueued := rfl
@[simp] theorem emit_running : (emit s e).running = s.running := rfl
@[simp] theorem emit_result : (emit s e).result = s.result := rfl
@[simp] theorem emit_isStarted : (emit s e).isStarted = s.isStarted := rfl
@[simp] theorem emit_isClosed : (emit s e).isClosed = s.isClosed := rfl
@[simp] theorem emit_isResolved : (emit s e).isResolved = s.isResolved := rfl
@[simp] theorem emit_promiseResult : (emit s e).promiseResult = s.promiseResult := rfl
@[simp] theorem emit_events : (emit s e).events = s.events ++ [e] := rfl

@[simp] theorem settle_size : (settle s o).size = s.size := by
  unfold settle; split <;> rfl
@[simp] theorem settle_rejectOnError : (settle s o).rejectOnError = s.rejectOnError := by
  unfold settle; split <;> rfl
@[simp] theorem settle_autoStart : (settle s o).autoStart = s.autoStart := by
  unfold settle; split <;> rfl
@[simp] theorem settle_currentIndex : (settle s o).currentIndex = s.currentIndex := by
  unfold settle; split <;> rfl
@[simp] theorem settle_tasks : (settle s o).tasks = s.tasks := by
  unfold settle; split <;> rfl
@[simp] theorem settle_enqueued : (settle s o).enqueued = s.enqueued := by
  unfold settle; split <;> rfl
@[simp] theorem settle_running : (settle s o).running = s.running := by
  unfold settle; split <;> rfl
@[simp] theorem settle_result : (settle s o).result = s.result := by
  unfold settle; split <;> rfl
@[simp] theorem settle_isStarted : (settle s o).isStarted = s.isStarted := by
  unfold settle; split <;> rfl
@[simp] theorem settle_isClosed : (settle s o).isClosed = s.isClosed := by
  unfold settle; split <;> rfl
@[simp] theorem settle_isResolved : (settle s o).isResolved = s.isResolved := by
  unfold settle; split <;> rfl
@[simp] theorem settle_events : (settle s o).events = s.events := by
  unfold settle; split <;> rfl

theorem settle_promiseResult (s : PoolState) (o : PromiseOut) :
    (settle s o).promiseResult = some (s.promiseResult.getD o) := by
  unfold settle; split <;> simp_all

end FieldLemmas

/-! ### Lemmas about the launch loop -/

/-- The while loop launches an initial segment of the queue. -/
theorem launchList_append (c : Cap) (n : Nat) (q : List Nat) :
    (launchList c n q).1 ++ (launchList c n q).2 = q := by
  induction q generalizing n with
  | nil => simp [launchList]
  | cons i rest ih =>
    cases hc : capLt n c with
    | false => simp [launchList, hc]
    | true => simpa [launchList, hc] using ih (n + 1)

/-- With a finite cap, either the loop launches nothing, or the final
running count stays within the cap. -/
theorem launchList_len_le (C : Int) (n : Nat) (q : List Nat) :
    (launchList (.fin C) n q).1 = [] ∨
      ((n : Int) + (launchList (.fin C) n q).1.length ≤ C) := by
  induction q generalizing n with
  | nil => left; simp [launchList]
  | cons i rest ih =>
    cases hc : capLt n (.fin C) with
    | false => left; simp [launchList, hc]
    | true =>
      right
      have hn : (n : Int) < C := by simpa [capLt] using hc
      rcases ih (n + 1) with h | h
      · simp [launchList, hc, h]; omega
      · simp only [launchList, hc, if_true, List.length_cons]
        push_cast
        push_cast at h
        omega

/-- With an exhausted finite cap, the loop launches nothing. -/
theorem launchList_nil_of_ge (C : Int) (n : Nat) (q : List Nat)
    (h : ¬ (n : Int) < C) : launchList (.fin C) n q = ([], q) := by
  cases q with
  | nil => simp [launchList]
  | cons i rest => simp [launchList, capLt, h]

/-! ### The concurrency cap is fixed at construction -/

theorem size_runNext (s : PoolState) : (runNext s).size = s.size := by
  simp only [runNext]
  split
  · split
    · split
      · split <;> simp
      · split <;> simp
    · split
      · rfl
      · split
        · rfl
        · simp
  · rfl

theorem size_start (s : PoolState) : (start s).size = s.size := by
  unfold start
  split
  · exact size_runNext s
  · rw [size_runNext]; rfl

theorem size_close (s : PoolState) : (close s).size = s.size := by
  unfold close
  rw [size_start]

theorem size_enqueue {s : PoolState} {o : TaskOutcome} {s' : PoolState}
    (he : PromisePool.enqueue s o = .ok s') : s'.size = s.size := by
  simp only [enqueue] at he
  split at he
  · exact absurd he (by simp)
  · split at he
    · exact absurd he (by simp)
    · split at he
      · cases he; rw [size_start]
      · split at he
        · cases he; rw [size_runNext]
        · cases he; rfl

theorem size_promiseDone (s : PoolState) (i : Nat) (v : Nat) :
    (promiseDone s i v).size = s.size := by
  unfold promiseDone
  split
  · rfl
  · split
    · rw [size_runNext]; rfl
    · rfl

theorem size_promiseRejected (s : PoolState) (i : Nat) (c : Nat) :
    (promiseRejected s i c).size = s.size := by
  simp only [promiseRejected]
  split
  · rfl
  · split
    · split
      · simp
      · rw [size_runNext]; rfl
    · rfl

theorem size_complete (s : PoolState) (i : Nat) :
    (complete s i).size = s.size := by
  unfold complete
  split
  · rw [size_promiseDone]
  · rw [size_promiseRejected]
  · rfl

theorem size_stepAct (s : PoolState) (a : Act) : (stepAct s a).size = s.size := by
  cases a with
  | enq o =>
    simp only [stepAct]
    split
    · next s' he => exact size_enqueue he
    · rfl
  | start => exact size_start s
  | close => exact size_close s
  | complete i => exact size_complete s i

theorem size_runActs (s : PoolState) (acts : List Act) :
    (runActs s acts).size = s.size := by
  induction acts generalizing s with
  | nil => rfl
  | cons a rest ih => rw [runActs, List.foldl_cons, ← runActs, ih, size_stepAct]

/-! ### The running count never exceeds a finite cap (claim C2) -/

theorem runNext_running_le {C : Int} {s : PoolState} (hsz : s.size = .fin C)
    (h : s.running.length ≤ C.toNat) :
    (runNext s).running.length ≤ C.toNat := by
  simp only [runNext]
  split
  · split
    · split
      · split
        · simpa using h
        · exact h
      · split
        · simpa using h
        · exact h
    · rw [hsz]
      have key : (s.running ++ (launchList (.fin C) s.running.length s.enqueued).1).length
          ≤ C.toNat := by
        rcases launchList_len_le C s.running.length s.enqueued with hl | hl
        · rw [hl]; simpa using h
        · rw [List.length_append]; omega
      split
      · exact key
      · split
        · exact key
        · exact key
  · exact h

theorem start_running_le {C : Int} {s : PoolState} (hsz : s.size = .fin C)
    (h : s.running.length ≤ C.toNat) :
    (start s).running.length ≤ C.toNat := by
  unfold start
  split
  · exact runNext_running_le hsz h
  · exact runNext_running_le (s := { emit s .startEv with isStarted := true }) hsz h

theorem close_running_le {C : Int} {s : PoolState} (hsz : s.size = .fin C)
    (h : s.running.length ≤ C.toNat) :
    (close s).running.length ≤ C.toNat := by
  unfold close
  exact start_running_le (s := { s with isClosed := true }) hsz h

theorem enqueue_ok_running_le {C : Int} {s : PoolState} {o : TaskOutcome}
    {s' : PoolState} (hsz : s.size = .fin C)
    (h : s.running.length ≤ C.toNat)
    (he : PromisePool.enqueue s o = .ok s') :
    s'.running.length ≤ C.toNat := by
  simp only [enqueue] at he
  split at he
  · exact absurd he (by simp)
  · split at he
    · exact absurd he (by simp)
    · split at he
      · cases he
        exact start_running_le (s := { s with
          tasks := s.tasks ++ [o],
          enqueued := s.enqueued ++ [s.currentIndex],
          currentIndex := s.currentIndex + 1 }) hsz h
      · split at he
        · cases he
          exact runNext_running_le (s := { s with
            tasks := s.tasks ++ [o],
            enqueued := s.enqueued ++ [s.currentIndex],
            currentIndex := s.currentIndex + 1 }) hsz h
        · cases he; exact h

theorem promiseDone_running_le {C : Int} {s : PoolState} {i v : Nat}
    (hsz : s.size = .fin C)
    (h : s.running.length ≤ C.toNat) :
    (promiseDone s i v).running.length ≤ C.toNat := by
  have herase : (s.running.erase i).length ≤ s.running.length :=
    List.length_erase_le i s.running
  unfold promiseDone
  split
  · exact h
  · split
    · exact runNext_running_le (s := emit { s with
        running := s.running.erase i,
        result := setSlot s.result i (.val v) } .next) hsz (by
          show (s.running.erase i).length ≤ C.toNat
          omega)
    · exact h

theorem promiseRejected_running_le {C : Int} {s : PoolState} {i c : Nat}
    (hsz : s.size = .fin C)
    (h : s.running.length ≤ C.toNat) :
    (promiseRejected s i c).running.length ≤ C.toNat := by
  have herase : (s.running.erase i).length ≤ s.running.length :=
    List.length_erase_le i s.running
  simp only [promiseRejected]
  split
  · exact h
  · split
    · split
      · simp only [settle_running]
        show (s.running.erase i).length ≤ C.toNat
        omega
      · exact runNext_running_le (s := emit { s with
          running := s.running.erase i,
          result := setSlot s.result i (.err c) } .next) hsz (by
            show (s.running.erase i).length ≤ C.toNat
            omega)
    · exact h

theorem stepAct_running_le {C : Int} {s : PoolState} (a : Act)
    (hsz : s.size = .fin C)
    (h : s.running.length ≤ C.toNat) :
    (stepAct s a).running.length ≤ C.toNat := by
  cases a with
  | enq o =>
    simp only [stepAct]
    split
    · next s' he => exact enqueue_ok_running_le hsz h he
    · exact h
  | start => exact start_running_le hsz h
  | close => exact close_running_le hsz h
  | complete i =>
    simp only [stepAct]
    unfold complete
    split
    · exact promiseDone_running_le hsz h
    · exact promiseRejected_running_le hsz h
    · exact h

theorem runActs_running_le {C : Int} {s : PoolState} (acts : List Act)
    (hsz : s.size = .fin C)
    (h : s.running.length ≤ C.toNat) :
    (runActs s acts).running.length ≤ C.toNat := by
  induction acts generalizing s with
  | nil => exact h
  | cons a rest ih =>
    rw [runActs, List.foldl_cons, ← runActs]
    exact ih (by rw [size_stepAct]; exact hsz) (stepAct_running_le a hsz h)

theorem mkSize_fin_of_ne_zero {C : Int} (h : C ≠ 0) : mkSize (.fin C) = .fin C := by
  unfold mkSize
  split
  · next heq => cases heq; exact absurd rfl h
  · rfl

end PromisePool

namespace PromisePool

/-- C2: for every pool constructed with a finite positive concurrency
cap `C` and every sequence of admissions, completions and close calls,
the number of running tasks never exceeds `C`: the scheduling loop only
launches while `#running.length < this.size`, and every other operation
can only shrink `#running`. -/
theorem c2_running_never_exceeds_cap (C : Int) (ro auto : Bool)
    (acts : List Act) (hC : 0 < C) :
    ((runActs (initPool (.fin C) ro auto) acts).running.length : Int) ≤ C := by
  have hsz : (initPool (.fin C) ro auto).size = .fin C :=
    mkSize_fin_of_ne_zero (by omega)
  have hb := runActs_running_le acts hsz (Nat.zero_le _)
  omega

/-- Witness for C2 at cap 2 and a concrete six-action trace. -/
theorem c2_running_never_exceeds_cap_witness :
    (0 : Int) < 2 ∧
    ((runActs (initPool (.fin 2) false true)
      [.enq (.success 1), .enq (.success 2), .enq (.success 3), .close,
       .complete 0, .complete 2]).running.length : Int) ≤ 2 :=
  ⟨by decide,
   c2_running_never_exceeds_cap 2 false true
     [.enq (.success 1), .enq (.success 2), .enq (.success 3), .close,
      .complete 0, .complete 2] (by decide)⟩

/-- C5: `enqueue` fails synchronously with the closed-pool error when
the pool is closed, with the settled-pool error when it is settled but
not closed, and in either case the pool state is unchanged (both guards
throw before any index is assigned or the queue is touched). -/
theorem c5_enqueue_guard_errors (s : PoolState) (o : TaskOutcome) :
    (s.isClosed = true → enqueue s o = .error .poolClosed) ∧
    (s.isClosed = false → s.isResolved = true →
      enqueue s o = .error .poolSettled) ∧
    ((s.isClosed = true ∨ s.isResolved = true) → stepAct s (.enq o) = s) := by
  refine ⟨?_, ?_, ?_⟩
  · intro h; simp [enqueue, h]
  · intro h1 h2; simp [enqueue, h1, h2]
  · intro h
    rcases h with h | h
    · simp [stepAct, enqueue, h]
    · by_cases hc : s.isClosed = true
      · simp [stepAct, enqueue, hc]
      · simp only [Bool.not_eq_true] at hc
        simp [stepAct, enqueue, hc, h]

/-- Witness for C5: a pool closed by `close()` raises the closed error,
and a pool settled by a fail-fast rejection (settled but not closed)
raises the settled error. -/
theorem c5_enqueue_guard_errors_witness :
    enqueue (runActs (initPool (.fin 1) false true) [.close]) (.success 0)
        = .error .poolClosed ∧
    enqueue (runActs (initPool (.fin 1) true true)
        [.enq (.failure 9), .complete 0]) (.success 0)
        = .error .poolSettled :=
  ⟨(c5_enqueue_guard_errors
      (runActs (initPool (.fin 1) false true) [.close]) (.success 0)).1
      (by decide),
   (c5_enqueue_guard_errors
      (runActs (initPool (.fin 1) true true)
        [.enq (.failure 9), .complete 0]) (.success 0)).2.1
      (by decide) (by decide)⟩

/-- C3 (code bug): with `rejectOnError` and cap 1, enqueue a failing
task 0 and a second task 1.  Task 0's rejection settles the pool with
its cause (`promiseResult = rejected 9`, queue still holding task 1 and
nothing running) — but a subsequent `close()` call reaches `runNext`,
which has no settled-state guard, and launches queued task 1 after the
settlement (`running = [1]`), contradicting the claim (and the spec's
own invariant that no scheduling occurs once settled). -/
theorem c3_queued_task_launched_after_failfast_settlement :
    ((runActs (initPool (.fin 1) true true)
        [.enq (.failure 9), .enq (.success 5), .complete 0]).promiseResult
        = some (.rejected 9) ∧
      (runActs (initPool (.fin 1) true true)
        [.enq (.failure 9), .enq (.success 5), .complete 0]).running = [] ∧
      (runActs (initPool (.fin 1) true true)
        [.enq (.failure 9), .enq (.success 5), .complete 0]).enqueued = [1]) ∧
    (runActs (initPool (.fin 1) true true)
        [.enq (.failure 9), .enq (.success 5), .complete 0, .close]).running
        = [1] := by
  decide

end PromisePool

namespace PromisePool

/-! ### No `close` event is ever emitted (claim C7) -/

theorem noClose_emit {s : PoolState} {e : Event} (h : Event.closeEv ∉ s.events)
    (he : e ≠ Event.closeEv) : Event.closeEv ∉ (emit s e).events := by
  simp only [emit_events, List.mem_append, List.mem_singleton]
  rintro (hc | hc)
  · exact h hc
  · exact he hc.symm

theorem noClose_runNext {s : PoolState} (h : Event.closeEv ∉ s.events) :
    Event.closeEv ∉ (runNext s).events := by
  simp only [runNext]
  split
  · split
    · split
      · split
        · simpa using h
        · exact h
      · split
        · exact noClose_emit h (by decide)
        · exact h
    · split
      · exact h
      · split
        · exact h
        · exact noClose_emit (s := { s with
            enqueued := (launchList s.size s.running.length s.enqueued).2,
            running := s.running ++ (launchList s.size s.running.length s.enqueued).1 })
            h (by decide)
  · exact h

theorem noClose_start {s : PoolState} (h : Event.closeEv ∉ s.events) :
    Event.closeEv ∉ (start s).events := by
  unfold start
  split
  · exact noClose_runNext h
  · exact noClose_runNext (s := { emit s .startEv with isStarted := true })
      (noClose_emit h (by decide))

theorem noClose_close {s : PoolState} (h : Event.closeEv ∉ s.events) :
    Event.closeEv ∉ (close s).events := by
  unfold close
  exact noClose_start (s := { s with isClosed := true }) h

theorem noClose_enqueue {s : PoolState} {o : TaskOutcome} {s' : PoolState}
    (h : Event.closeEv ∉ s.events)
    (he : PromisePool.enqueue s o = .ok s') :
    Event.closeEv ∉ s'.events := by
  simp only [enqueue] at he
  split at he
  · exact absurd he (by simp)
  · split at he
    · exact absurd he (by simp)
    · split at he
      · cases he
        exact noClose_start (s := { s with
          tasks := s.tasks ++ [o],
          enqueued := s.enqueued ++ [s.currentIndex],
          currentIndex := s.currentIndex + 1 }) h
      · split at he
        · cases he
          exact noClose_runNext (s := { s with
            tasks := s.tasks ++ [o],
            enqueued := s.enqueued ++ [s.currentIndex],
            currentIndex := s.currentIndex + 1 }) h
        · cases he; exact h

theorem noClose_promiseDone {s : PoolState} {i v : Nat}
    (h : Event.closeEv ∉ s.events) :
    Event.closeEv ∉ (promiseDone s i v).events := by
  unfold promiseDone
  split
  · exact h
  · split
    · exact noClose_runNext (noClose_emit (s := { s with
        running := s.running.erase i,
        result := setSlot s.result i (.val v) }) h (by decide))
    · exact h

theorem noClose_promiseRejected {s : PoolState} {i c : Nat}
    (h : Event.closeEv ∉ s.events) :
    Event.closeEv ∉ (promiseRejected s i c).events := by
  simp only [promiseRejected]
  split
  · exact h
  · split
    · split
      · simpa using h
      · exact noClose_runNext (noClose_emit (s := { s with
          running := s.running.erase i,
          result := setSlot s.result i (.err c) }) h (by decide))
    · exact h

theorem noClose_stepAct {s : PoolState} (a : Act)
    (h : Event.closeEv ∉ s.events) :
    Event.closeEv ∉ (stepAct s a).events := by
  cases a with
  | enq o =>
    simp only [stepAct]
    split
    · next s' he => exact noClose_enqueue h he
    · exact h
  | start => exact noClose_start h
  | close => exact noClose_close h
  | complete i =>
    simp only [stepAct]
    unfold complete
    split
    · exact noClose_promiseDone h
    · exact noClose_promiseRejected h
    · exact h

/-- C7 counterexample: `close()` on a fresh pool settles it
(`isResolved`, result handle resolved with the empty sequence), yet the
event log holds only `start` — no `close` emission accompanies the
terminal resolution, so a registered `close` listener is never invoked. -/
theorem c7_counterexample_settlement_without_close_event :
    (runActs (initPool (.fin 1) false true) [.close]).isResolved = true ∧
    (runActs (initPool (.fin 1) false true) [.close]).promiseResult
      = some (.resolved []) ∧
    (runActs (initPool (.fin 1) false true) [.close]).events = [.startEv] := by
  decide

theorem noClose_runActs {s : PoolState} (acts : List Act)
    (h : Event.closeEv ∉ s.events) :
    Event.closeEv ∉ (runActs s acts).events := by
  induction acts generalizing s with
  | nil => exact h
  | cons a rest ih =>
    rw [runActs, List.foldl_cons, ← runActs]
    exact ih (noClose_stepAct a h)

/-- C7 amended: the pool never emits the `close` event at all — the
`"close"` member of `POOL_EVENT_TYPE` is declared but `#emit("close")`
appears nowhere, so terminal resolution is never accompanied by a
`close` emission and `close` listeners are never invoked; settlement is
observable only through the result handle. -/
theorem c7_close_event_never_emitted (c : Cap) (ro auto : Bool)
    (acts : List Act) :
    Event.closeEv ∉ (runActs (initPool c ro auto) acts).events :=
  noClose_runActs acts (by simp [initPool])

end PromisePool

namespace PromisePool

/-! ### When the `available` event fires (claim C9) -/

/-- C9 counterexample: cap 2, three tasks admitted, pool closed; tasks
0 and 1 run, task 2 is queued.  Task 0's completion is processed (its
slot is written), leaving exactly `cap - 1 = 1` task running while task
2 is still queued — the claim requires an `available` emission here —
but the scheduling pass refills the freed slot with task 2 and emits
`full`; no `available` is ever emitted in the whole trace. -/
theorem c9_counterexample_no_available_with_queued_tasks :
    (runActs (initPool (.fin 2) false true)
      [.enq (.success 1), .enq (.success 2), .enq (.success 3), .close]).running.length
      = 2 ∧
    slotAt (runActs (initPool (.fin 2) false true)
      [.enq (.success 1), .enq (.success 2), .enq (.success 3), .close,
       .complete 0]).result 0 = some (.val 1) ∧
    (runActs (initPool (.fin 2) false true)
      [.enq (.success 1), .enq (.success 2), .enq (.success 3), .close,
       .complete 0]).events.count .available = 0 := by
  decide

/-- C9 amended: for a pool with finite cap `C`, a scheduling pass emits
`available` exactly when it finds the queue empty, the running set
non-empty and the running count equal to `C - 1` — so it does not fire
when a completion leaves `C - 1` running while tasks are still queued
(the freed slot is refilled in the same pass, emitting `full` instead),
and it does fire on passes triggered by `start()`/`close()` without any
completion. -/
theorem c9_available_exactly_on_empty_queue_gap (s : PoolState) (C : Int)
    (hsz : s.size = .fin C) :
    (runNext s).events.count .available =
      s.events.count .available +
        (if s.isStarted = true ∧ s.enqueued = [] ∧ s.running ≠ [] ∧
            (s.running.length : Int) = C - 1 then 1 else 0) := by
  simp only [runNext]
  split
  · next h1 =>
    split
    · next h2 =>
      have h2' : s.enqueued = [] := List.isEmpty_iff.mp h2
      split
      · next h3 =>
        have h3' : s.running = [] := List.isEmpty_iff.mp h3
        have hrhs : (if s.isStarted = true ∧ s.enqueued = [] ∧ s.running ≠ [] ∧
            (s.running.length : Int) = C - 1 then 1 else 0) = 0 := by
          rw [if_neg]; simp [h3']
        rw [hrhs]
        split
        · simp
        · simp
      · next h3 =>
        have h3' : s.running ≠ [] := fun hne => h3 (by simp [hne])
        split
        · next h4 =>
          have hcnd : (s.running.length : Int) = C - 1 := by
            rw [hsz] at h4
            simpa [availCond] using h4
          rw [if_pos ⟨h1, h2', h3', hcnd⟩]
          simp
        · next h4 =>
          have hcnd : ¬ (s.running.length : Int) = C - 1 := by
            rw [hsz] at h4
            simpa [availCond] using h4
          rw [if_neg (by tauto)]
          simp
    · next h2 =>
      have h2' : ¬ s.enqueued = [] := fun hne => h2 (by simp [hne])
      have hrhs : (if s.isStarted = true ∧ s.enqueued = [] ∧ s.running ≠ [] ∧
          (s.running.length : Int) = C - 1 then 1 else 0) = 0 := by
        rw [if_neg]; tauto
      rw [hrhs]
      split
      · simp
      · split
        · simp
        · simp
  · next h1 =>
    have hrhs : (if s.isStarted = true ∧ s.enqueued = [] ∧ s.running ≠ [] ∧
        (s.running.length : Int) = C - 1 then 1 else 0) = 0 := by
      rw [if_neg]; simp [h1]
    rw [hrhs]
    simp

/-- Witness for C9's amended statement at a concrete reachable state
with cap 2, empty queue and one running task: the extra pass emits one
`available`. -/
theorem c9_available_exactly_on_empty_queue_gap_witness :
    (runNext (runActs (initPool (.fin 2) false true)
        [.enq (.success 1), .enq (.success 2), .close,
         .complete 0])).events.count .available =
      (runActs (initPool (.fin 2) false true)
        [.enq (.success 1), .enq (.success 2), .close,
         .complete 0]).events.count .available +
        (if (runActs (initPool (.fin 2) false true)
              [.enq (.success 1), .enq (.success 2), .close,
               .complete 0]).isStarted = true ∧
            (runActs (initPool (.fin 2) false true)
              [.enq (.success 1), .enq (.success 2), .close,
               .complete 0]).enqueued = [] ∧
            (runActs (initPool (.fin 2) false true)
              [.enq (.success 1), .enq (.success 2), .close,
               .complete 0]).running ≠ [] ∧
            ((runActs (initPool (.fin 2) false true)
              [.enq (.success 1), .enq (.success 2), .close,
               .complete 0]).running.length : Int) = 2 - 1 then 1 else 0) :=
  c9_available_exactly_on_empty_queue_gap
    (runActs (initPool (.fin 2) false true)
      [.enq (.success 1), .enq (.success 2), .close, .complete 0])
    2 (by decide)

end PromisePool

namespace PromisePool

/-! ### Non-positive caps (claim C6) -/

/-- Invariant of a pool whose cap is a negative number: nothing ever
launches, so nothing ever completes, the queue retains every admission,
and the pool can only resolve with the empty array when nothing was
admitted. -/
def NegInv (s : PoolState) : Prop :=
  s.running = [] ∧ s.result = [] ∧
  s.enqueued.length = s.currentIndex ∧
  s.tasks.length = s.currentIndex ∧
  (s.isResolved = true → s.currentIndex = 0) ∧
  (∀ po, s.promiseResult = some po →
    po = .resolved [] ∧ s.isResolved = true ∧ s.currentIndex = 0)

theorem negInv_runNext {C : Int} {s : PoolState} (hC : C < 0)
    (hsz : s.size = .fin C) (h : NegInv s) : NegInv (runNext s) := by
  obtain ⟨h1, h2, h3, h4, h5, h6⟩ := h
  have hneg : ¬ ((s.running.length : Int) < C) := by
    have : (0 : Int) ≤ (s.running.length : Int) := Int.natCast_nonneg _
    omega
  simp only [runNext]
  split
  · split
    · next he =>
      have he' : s.enqueued = [] := List.isEmpty_iff.mp he
      split
      · split
        · -- resolve branch
          have hci : s.currentIndex = 0 := by rw [← h3, he']; rfl
          refine ⟨by simpa using h1, by simpa using h2, by simpa using h3,
            by simpa using h4, fun _ => by rw [settle_currentIndex]; exact hci, ?_⟩
          intro po hpo
          rw [settle_promiseResult] at hpo
          cases hold : s.promiseResult with
          | none =>
            rw [hold] at hpo
            simp only [Option.getD_none, Option.some.injEq] at hpo
            rw [← hpo, h2]
            exact ⟨rfl, by rw [settle_isResolved],
              by rw [settle_currentIndex]; exact hci⟩
          | some po2 =>
            rw [hold] at hpo
            simp only [Option.getD_some, Option.some.injEq] at hpo
            obtain ⟨hp1, _, _⟩ := h6 po2 hold
            rw [← hpo]
            exact ⟨hp1, by rw [settle_isResolved],
              by rw [settle_currentIndex]; exact hci⟩
        · exact ⟨h1, h2, h3, h4, h5, h6⟩
      · next hr =>
        exact absurd (by rw [h1]; rfl) hr
    · -- launch branch: nothing can be launched
      rw [hsz, launchList_nil_of_ge C s.running.length s.enqueued hneg]
      split
      · next hcap =>
        exfalso
        simp only [capLt, List.append_nil, decide_eq_true_eq] at hcap
        exact hneg hcap
      · split
        · exact ⟨by simpa using h1, h2, h3, h4, h5, h6⟩
        · next hne => exact absurd rfl hne
  · exact ⟨h1, h2, h3, h4, h5, h6⟩

theorem negInv_start {C : Int} {s : PoolState} (hC : C < 0)
    (hsz : s.size = .fin C) (h : NegInv s) : NegInv (start s) := by
  unfold start
  split
  · exact negInv_runNext hC hsz h
  · exact negInv_runNext (s := { emit s .startEv with isStarted := true }) hC hsz h

theorem negInv_close {C : Int} {s : PoolState} (hC : C < 0)
    (hsz : s.size = .fin C) (h : NegInv s) : NegInv (close s) := by
  unfold close
  exact negInv_start (s := { s with isClosed := true }) hC hsz h

theorem negInv_enqueue {C : Int} {s : PoolState} {o : TaskOutcome} {s' : PoolState}
    (hC : C < 0) (hsz : s.size = .fin C) (h : NegInv s)
    (he : PromisePool.enqueue s o = .ok s') : NegInv s' := by
  obtain ⟨h1, h2, h3, h4, h5, h6⟩ := h
  simp only [enqueue] at he
  split at he
  · exact absurd he (by simp)
  · next hcl =>
    split at he
    · exact absurd he (by simp)
    · next hres =>
      have hs1 : NegInv { s with
          tasks := s.tasks ++ [o],
          enqueued := s.enqueued ++ [s.currentIndex],
          currentIndex := s.currentIndex + 1 } := by
        refine ⟨h1, h2, by simp [h3], by simp [h4], ?_, ?_⟩
        · intro hr
          exact absurd hr hres
        · intro po hpo
          obtain ⟨_, hp2, _⟩ := h6 po hpo
          exact absurd hp2 hres
      split at he
      · cases he
        exact negInv_start hC hsz hs1
      · split at he
        · cases he
          exact negInv_runNext hC hsz hs1
        · cases he; exact hs1

theorem negInv_stepAct {C : Int} {s : PoolState} (a : Act) (hC : C < 0)
    (hsz : s.size = .fin C) (h : NegInv s) : NegInv (stepAct s a) := by
  cases a with
  | enq o =>
    simp only [stepAct]
    split
    · next s' he => exact negInv_enqueue hC hsz h he
    · exact h
  | start => exact negInv_start hC hsz h
  | close => exact negInv_close hC hsz h
  | complete i =>
    simp only [stepAct]
    unfold complete
    have h1 := h.1
    split
    · unfold promiseDone
      split
      · exact h
      · split
        · next hm => rw [h1] at hm; exact absurd hm (List.not_mem_nil i)
        · exact h
    · simp only [promiseRejected]
      split
      · exact h
      · split
        · next hm => rw [h1] at hm; exact absurd hm (List.not_mem_nil i)
        · exact h
    · exact h

theorem negInv_runActs {C : Int} {s : PoolState} (acts : List Act) (hC : C < 0)
    (hsz : s.size = .fin C) (h : NegInv s) : NegInv (runActs s acts) := by
  induction acts generalizing s with
  | nil => exact h
  | cons a rest ih =>
    rw [runActs, List.foldl_cons, ← runActs]
    exact ih (by rw [size_stepAct]; exact hsz) (negInv_stepAct a hC hsz h)

/-- C6 counterexample: the constructor never rejects a non-positive
cap.  `concurrency = 0` is accepted and silently replaced by the
default cap 10 — and that "cap 0" pool then schedules the first
admitted task immediately; `concurrency = -1` is accepted and kept. -/
theorem c6_counterexample_nonpositive_caps_accepted :
    (pool (.fin 0) false true).size = .fin 10 ∧
    (pool (.fin (-1)) false true).size = .fin (-1) ∧
    (runActs (pool (.fin 0) false true) [.enq (.success 1)]).running = [0] := by
  decide

/-- C6 amended: pool construction rejects nothing.  A cap of `0` is
falsy and replaced by the default cap `10`, so such a pool does
schedule tasks; a pool constructed with a negative cap never launches
any task, and its result handle can only resolve — on `close()` — with
the empty sequence, and only when nothing was enqueued. -/
theorem c6_constructor_accepts_and_neg_cap_never_schedules
    (C : Int) (ro auto : Bool) (acts : List Act) (hC : C < 0) :
    (initPool (.fin 0) ro auto).size = .fin 10 ∧
    (runActs (initPool (.fin C) ro auto) acts).running = [] ∧
    (∀ r, (runActs (initPool (.fin C) ro auto) acts).promiseResult
        = some (.resolved r) →
      r = [] ∧ (runActs (initPool (.fin C) ro auto) acts).tasks = []) := by
  have hsz : (initPool (.fin C) ro auto).size = .fin C :=
    mkSize_fin_of_ne_zero (by omega)
  have h0 : NegInv (initPool (.fin C) ro auto) := by
    refine ⟨rfl, rfl, rfl, rfl, fun h => rfl, fun po hpo => ?_⟩
    simp [initPool] at hpo
  have hf := negInv_runActs acts hC hsz h0
  obtain ⟨hf1, _, _, hf4, _, hf6⟩ := hf
  refine ⟨rfl, hf1, ?_⟩
  intro r hr
  obtain ⟨hp1, _, hp3⟩ := hf6 (.resolved r) hr
  refine ⟨by injection hp1, ?_⟩
  exact List.length_eq_zero.mp (by rw [hf4, hp3])

/-- Witness for C6's amended statement at cap `-1` with an
enqueue-then-close trace. -/
theorem c6_constructor_accepts_and_neg_cap_never_schedules_witness :
    (-1 : Int) < 0 ∧
    (initPool (.fin 0) false true).size = .fin 10 ∧
    (runActs (initPool (.fin (-1)) false true)
      [.enq (.success 1), .close]).running = [] :=
  ⟨by decide,
   (c6_constructor_accepts_and_neg_cap_never_schedules (-1) false true
     [.enq (.success 1), .close] (by decide)).1,
   (c6_constructor_accepts_and_neg_cap_never_schedules (-1) false true
     [.enq (.success 1), .close] (by decide)).2.1⟩

end PromisePool

namespace Listeners

/-! ### Listener registration is keyed by callback identity (claim C10) -/

theorem mapSet_cons_ne {q : Nat × Bool} {rest : List (Nat × Bool)} {k : Nat}
    (v : Bool) (hq : (q.1 == k) = false) :
    mapSet (q :: rest) k v = q :: mapSet rest k v := by
  have hne : ¬ (q.1 = k) := by simpa using hq
  simp only [mapSet, List.any_cons, hq, Bool.false_or]
  split
  · simp only [List.map_cons]
    congr 1
    simp [hne]
  · simp

theorem filter_eq_nil_of_not_mem {m : List (Nat × Bool)} {k : Nat}
    (h : k ∉ m.map Prod.fst) : m.filter (fun p => p.1 == k) = [] := by
  rw [List.filter_eq_nil_iff]
  intro p hp
  simp only [beq_iff_eq]
  intro hpk
  exact h (List.mem_map.mpr ⟨p, hp, hpk⟩)

theorem map_update_of_not_mem {m : List (Nat × Bool)} {k : Nat} (v : Bool)
    (h : k ∉ m.map Prod.fst) :
    (m.map (fun p => if p.1 == k then (k, v) else p)) = m := by
  induction m with
  | nil => rfl
  | cons q rest ih =>
    have hq1 : ¬ (q.1 = k) := by
      intro hqk
      exact h (by simp [← hqk])
    have hrest : k ∉ rest.map Prod.fst := by
      intro hm
      exact h (by simp [hm])
    simp only [List.map_cons]
    rw [ih hrest]
    congr 1
    simp [hq1]

theorem keys_mapSet (m : List (Nat × Bool)) (k : Nat) (v : Bool) :
    (mapSet m k v).map Prod.fst =
      if k ∈ m.map Prod.fst then m.map Prod.fst
      else m.map Prod.fst ++ [k] := by
  unfold mapSet
  split
  · next h =>
    have hk : k ∈ m.map Prod.fst := by
      simp only [List.any_eq_true, beq_iff_eq] at h
      obtain ⟨p, hp, hpk⟩ := h
      exact List.mem_map.mpr ⟨p, hp, hpk⟩
    rw [if_pos hk, List.map_map]
    apply List.map_congr_left
    intro p hp
    by_cases hpk : (p.1 == k) = true
    · simp only [Function.comp_apply, hpk, if_true]
      exact (eq_of_beq hpk).symm
    · have hne : ¬ (p.1 = k) := by simpa using hpk
      simp [Function.comp_apply, hne]
  · next h =>
    have hk : k ∉ m.map Prod.fst := by
      simp only [List.any_eq_true, beq_iff_eq] at h
      intro hm
      obtain ⟨p, hp, hpk⟩ := List.mem_map.mp hm
      exact h ⟨p, hp, hpk⟩
    rw [if_neg hk]
    simp

theorem filter_mapSet_self (m : List (Nat × Bool)) (k : Nat) (v : Bool)
    (hnd : (m.map Prod.fst).Nodup) :
    (mapSet m k v).filter (fun p => p.1 == k) = [(k, v)] := by
  induction m with
  | nil => simp [mapSet]
  | cons q rest ih =>
    simp only [List.map_cons, List.nodup_cons] at hnd
    obtain ⟨hq_not, hnd_rest⟩ := hnd
    by_cases hq : (q.1 == k) = true
    · have hqk : q.1 = k := eq_of_beq hq
      have hany : ((q :: rest).any (fun p => p.1 == k)) = true := by
        simp [List.any_cons, hq]
      have hrest_not : k ∉ rest.map Prod.fst := by rw [← hqk]; exact hq_not
      have hmap : ((q :: rest).map (fun p => if p.1 == k then (k, v) else p))
          = (k, v) :: rest := by
        rw [List.map_cons, map_update_of_not_mem v hrest_not]
        congr 1
        simp [hq]
      unfold mapSet
      rw [if_pos hany, hmap,
        List.filter_cons_of_pos (by simp),
        filter_eq_nil_of_not_mem hrest_not]
    · have hq' : (q.1 == k) = false := by simpa using hq
      rw [mapSet_cons_ne v hq',
        List.filter_cons_of_neg (by simp [hq'])]
      exact ih hnd_rest

theorem keys_nodup_mapSet (m : List (Nat × Bool)) (k : Nat) (v : Bool)
    (hnd : (m.map Prod.fst).Nodup) :
    ((mapSet m k v).map Prod.fst).Nodup := by
  rw [keys_mapSet]
  split
  · exact hnd
  · next h =>
    exact List.Nodup.append hnd (List.nodup_singleton k)
      (by simpa [List.disjoint_singleton] using h)

/-- C10: registration is keyed by callback identity.  Registering
callback `k` twice on the same event — `b = false` for `on`, `b = true`
for `once`, so `(b1, b2)` ranges over on/on, on/once, once/on and
once/once — leaves exactly one listener record for `k`, carrying the
one-shot flag of the most recent registration, and a subsequent
emission invokes `k` exactly once. -/
theorem c10_registration_keyed_by_callback (m : List (Nat × Bool))
    (k : Nat) (b1 b2 : Bool) (hnd : (m.map Prod.fst).Nodup) :
    ((mapSet (mapSet m k b1) k b2).filter (fun p => p.1 == k) = [(k, b2)]) ∧
    ((emitInvoke (mapSet (mapSet m k b1) k b2)).1.count k = 1) := by
  have hnd1 : ((mapSet m k b1).map Prod.fst).Nodup :=
    keys_nodup_mapSet m k b1 hnd
  refine ⟨filter_mapSet_self _ k b2 hnd1, ?_⟩
  have hkin : k ∈ (mapSet m k b1).map Prod.fst := by
    rw [keys_mapSet]
    split
    · next h => exact h
    · exact List.mem_append.mpr (Or.inr (by simp))
  have hkeys : (mapSet (mapSet m k b1) k b2).map Prod.fst
      = (mapSet m k b1).map Prod.fst := by
    rw [keys_mapSet]
    exact if_pos hkin
  show ((mapSet (mapSet m k b1) k b2).map Prod.fst).count k = 1
  rw [hkeys]
  exact List.count_eq_one_of_mem hnd1 hkin

/-- Witness for C10: on a registry already holding callback 5, register
callback 7 via `on` then via `once`; one record `(7, true)` remains and
an emission invokes 7 once. -/
theorem c10_registration_keyed_by_callback_witness :
    ((mapSet (mapSet [(5, true)] 7 false) 7 true).filter (fun p => p.1 == 7)
      = [(7, true)]) ∧
    ((emitInvoke (mapSet (mapSet [(5, true)] 7 false) 7 true)).1.count 7 = 1) :=
  c10_registration_keyed_by_callback [(5, true)] 7 false true (by decide)

end Listeners

namespace PromisePool

/-! ### When the `full` event fires (claim C8) -/

theorem isEmpty_append_singleton (l : List Nat) (x : Nat) :
    (l ++ [x]).isEmpty = false := by
  cases l <;> rfl

/-- A scheduling pass on a pool whose running count has reached a
finite cap launches nothing and changes nothing. -/
theorem runNext_full_noop {C : Int} {t : PoolState} (hsz : t.size = .fin C)
    (hge : ¬ ((t.running.length : Int) < C)) (hstart : t.isStarted = true)
    (hne : t.enqueued.isEmpty = false) :
    runNext t = t := by
  obtain ⟨sz, ro, au, ci, tk, en, ru, re, st, cl, rv, pr, ev⟩ := t
  dsimp only at hsz hge hstart hne
  subst hsz hstart
  have hL := launchList_nil_of_ge C ru.length en hge
  have hcf : capLt ru.length (Cap.fin C) = false := by
    simpa [capLt] using hge
  simp [runNext, hne, hL, hcf]

theorem start_events_full_noop {C : Int} {t : PoolState} (hsz : t.size = .fin C)
    (hge : ¬ ((t.running.length : Int) < C)) (hne : t.enqueued.isEmpty = false) :
    (start t).events.count Event.full = t.events.count Event.full := by
  unfold start
  split
  · next hst => rw [runNext_full_noop hsz hge hst hne]
  · have hnoop : runNext { emit t .startEv with isStarted := true }
        = { emit t .startEv with isStarted := true } :=
      runNext_full_noop (t := { emit t .startEv with isStarted := true })
        hsz hge rfl hne
    rw [hnoop]
    simp

theorem stepAct_enq_events_full {C : Int} {s : PoolState} (o : TaskOutcome)
    (hsz : s.size = .fin C) (hge : ¬ ((s.running.length : Int) < C)) :
    (stepAct s (.enq o)).events.count Event.full
      = s.events.count Event.full := by
  simp only [stepAct]
  cases he : enqueue s o with
  | error e => rfl
  | ok s2 =>
    simp only [enqueue] at he
    split at he
    · exact absurd he (by simp)
    · split at he
      · exact absurd he (by simp)
      · split at he
        · cases he
          exact start_events_full_noop (t := { s with
            tasks := s.tasks ++ [o],
            enqueued := s.enqueued ++ [s.currentIndex],
            currentIndex := s.currentIndex + 1 })
            hsz hge (isEmpty_append_singleton _ _)
        · split at he
          · next hst =>
            cases he
            rw [runNext_full_noop (t := { s with
              tasks := s.tasks ++ [o],
              enqueued := s.enqueued ++ [s.currentIndex],
              currentIndex := s.currentIndex + 1 })
              hsz hge hst (isEmpty_append_singleton _ _)]
          · cases he; rfl

/-- C8: for a pool with finite cap `C`, a scheduling pass emits `full`
exactly when it launched at least one task (the running count grew) and
ended with the running count at `C`; and an admission made while the
pool is already full emits no `full`. -/
theorem c8_full_emission (s : PoolState) (C : Int) (o : TaskOutcome)
    (hsz : s.size = .fin C) :
    ((runNext s).events.count .full =
      s.events.count .full +
        (if s.running.length < (runNext s).running.length ∧
            ((runNext s).running.length : Int) = C then 1 else 0)) ∧
    ((s.running.length : Int) = C →
      (stepAct s (.enq o)).events.count .full = s.events.count .full) := by
  constructor
  · by_cases h1 : s.isStarted = true
    · by_cases h2 : s.enqueued.isEmpty = true
      · by_cases h3 : s.running.isEmpty = true
        · by_cases h4 : s.isClosed = true
          · have hrn : runNext s
                = settle { s with isResolved := true } (.resolved s.result) := by
              simp [runNext, h1, h2, h3, h4]
            rw [hrn]
            simp
          · have hrn : runNext s = s := by simp [runNext, h1, h2, h3, h4]
            rw [hrn]
            simp
        · by_cases h5 : availCond s.running.length s.size = true
          · have hrn : runNext s = emit s .available := by
              simp [runNext, h1, h2, h3, h5]
            rw [hrn]
            simp
          · have hrn : runNext s = s := by simp [runNext, h1, h2, h3, h5]
            rw [hrn]
            simp
      · -- launch branch
        have h2' : s.enqueued.isEmpty = false := by simpa using h2
        have hrn : runNext s =
            (if capLt (s.running
                ++ (launchList s.size s.running.length s.enqueued).1).length s.size
              then { s with
                enqueued := (launchList s.size s.running.length s.enqueued).2,
                running := s.running
                  ++ (launchList s.size s.running.length s.enqueued).1 }
              else if (launchList s.size s.running.length s.enqueued).1.isEmpty
                then { s with
                  enqueued := (launchList s.size s.running.length s.enqueued).2,
                  running := s.running
                    ++ (launchList s.size s.running.length s.enqueued).1 }
                else emit { s with
                  enqueued := (launchList s.size s.running.length s.enqueued).2,
                  running := s.running
                    ++ (launchList s.size s.running.length s.enqueued).1 } .full) := by
          simp [runNext, h1, h2']
        rw [hsz] at hrn
        by_cases hcap : capLt (s.running
            ++ (launchList (Cap.fin C) s.running.length s.enqueued).1).length
            (Cap.fin C) = true
        · rw [hrn, if_pos hcap]
          have hlt : ((s.running
              ++ (launchList (Cap.fin C) s.running.length s.enqueued).1).length : Int)
              < C := by
            simpa [capLt] using hcap
          rw [if_neg (by
            rintro ⟨_, hc⟩
            rw [hc] at hlt
            exact lt_irrefl C hlt)]
          simp
        · have hcap' : capLt (s.running
              ++ (launchList (Cap.fin C) s.running.length s.enqueued).1).length
              (Cap.fin C) = false := by simpa using hcap
          have hge : ¬ (((s.running
              ++ (launchList (Cap.fin C) s.running.length s.enqueued).1).length : Int)
              < C) := by
            simpa [capLt] using hcap'
          by_cases hp : (launchList (Cap.fin C) s.running.length s.enqueued).1.isEmpty
              = true
          · have hp' : (launchList (Cap.fin C) s.running.length s.enqueued).1 = [] :=
              List.isEmpty_iff.mp hp
            rw [hrn, if_neg (by rw [hcap']; exact Bool.false_ne_true), if_pos hp]
            rw [if_neg (by
              rintro ⟨hgrow, _⟩
              rw [hp'] at hgrow
              simp at hgrow)]
            simp
          · have hp' : (launchList (Cap.fin C) s.running.length s.enqueued).1 ≠ [] :=
              fun hh => hp (by rw [hh]; rfl)
            have hpf : (launchList (Cap.fin C) s.running.length s.enqueued).1.isEmpty
                = false := by simpa using hp
            rw [hrn, if_neg (by rw [hcap']; exact Bool.false_ne_true),
              if_neg (by rw [hpf]; exact Bool.false_ne_true)]
            rcases launchList_len_le C s.running.length s.enqueued with hle | hle
            · exact absurd hle hp'
            · have heq : ((s.running
                  ++ (launchList (Cap.fin C) s.running.length s.enqueued).1).length : Int)
                  = C := by
                rw [List.length_append]
                rw [List.length_append] at hge
                push_cast
                push_cast at hle hge
                omega
              rw [if_pos ⟨by
                  simp only [emit_running, List.length_append]
                  have := List.length_pos.mpr hp'
                  omega,
                by simpa using heq⟩]
              simp
    · have h1' : s.isStarted = false := by simpa using h1
      have hrn : runNext s = s := by simp [runNext, h1']
      rw [hrn]
      simp
  · intro hfull
    exact stepAct_enq_events_full o hsz (by omega)

/-- Witness for C8 at a concrete reachable full pool: cap 1 with one
task running; the extra pass launches nothing and emits no `full`, and
an admission while full emits no `full`. -/
theorem c8_full_emission_witness :
    ((runNext (runActs (initPool (.fin 1) false true)
        [.enq (.success 1), .enq (.success 2)])).events.count .full =
      (runActs (initPool (.fin 1) false true)
        [.enq (.success 1), .enq (.success 2)]).events.count .full +
        (if (runActs (initPool (.fin 1) false true)
              [.enq (.success 1), .enq (.success 2)]).running.length <
            (runNext (runActs (initPool (.fin 1) false true)
              [.enq (.success 1), .enq (.success 2)])).running.length ∧
            ((runNext (runActs (initPool (.fin 1) false true)
              [.enq (.success 1), .enq (.success 2)])).running.length : Int) = 1
          then 1 else 0)) ∧
    (((runActs (initPool (.fin 1) false true)
        [.enq (.success 1), .enq (.success 2)]).running.length : Int) = 1 →
      (stepAct (runActs (initPool (.fin 1) false true)
        [.enq (.success 1), .enq (.success 2)]) (.enq (.success 3))).events.count .full
        = (runActs (initPool (.fin 1) false true)
            [.enq (.success 1), .enq (.success 2)]).events.count .full) :=
  c8_full_emission
    (runActs (initPool (.fin 1) false true)
      [.enq (.success 1), .enq (.success 2)])
    1 (.success 3) (by decide)

end PromisePool

namespace PromisePool

/-! ### Accumulate-mode invariant: ordered, complete results (claims C1, C4)

In accumulate mode (`rejectOnError` off) the pool maintains: every
admitted index is in exactly one of the queue, the running set, or the
result array; a filled slot always holds the slot of its own task's
outcome; and the result handle can only resolve once queue and running
set are empty, with the result array frozen from then on. -/

structure AccInv (s : PoolState) : Prop where
  ro : s.rejectOnError = false
  tlen : s.tasks.length = s.currentIndex
  enqLt : ∀ i ∈ s.enqueued, i < s.currentIndex
  runLt : ∀ i ∈ s.running, i < s.currentIndex
  ndE : s.enqueued.Nodup
  ndR : s.running.Nodup
  disj : ∀ i ∈ s.enqueued, i ∉ s.running
  dom1 : ∀ i, i ∈ s.enqueued ∨ i ∈ s.running → slotAt s.result i = none
  dom2 : ∀ i, i < s.currentIndex → i ∉ s.enqueued → i ∉ s.running →
    slotAt s.result i = some (slotOf (s.tasks.getD i (.success 0)))
  rlen : s.result.length ≤ s.currentIndex
  resEmpty : s.isResolved = true → s.enqueued = [] ∧ s.running = []
  settledRes : ∀ r, s.promiseResult = some (.resolved r) →
    s.isResolved = true ∧ r = s.result
  noRej : ∀ c, s.promiseResult ≠ some (.rejected c)

theorem tasks_getD_of_get? {l : List TaskOutcome} {i : Nat} {o : TaskOutcome}
    (h : l.get? i = some o) (d : TaskOutcome) : l.getD i d = o := by
  rw [List.getD_eq_getElem?_getD, ← List.get?_eq_getElem?, h]
  rfl

theorem getD_append_lt {l l2 : List TaskOutcome} {i : Nat}
    (hi : i < l.length) (d : TaskOutcome) :
    (l ++ l2).getD i d = l.getD i d := by
  rw [List.getD_eq_getElem?_getD, List.getD_eq_getElem?_getD,
    List.getElem?_append_left hi]

theorem accInv_emit {s : PoolState} {e : Event} (h : AccInv s) :
    AccInv (emit s e) :=
  ⟨h.ro, h.tlen, h.enqLt, h.runLt, h.ndE, h.ndR, h.disj, h.dom1, h.dom2,
   h.rlen, h.resEmpty, h.settledRes, h.noRej⟩

theorem accInv_init (c : Cap) (auto : Bool) : AccInv (initPool c false auto) := by
  constructor <;> simp [initPool, slotAt]

theorem accInv_resolve {s : PoolState} (h : AccInv s)
    (he' : s.enqueued = []) (hr' : s.running = []) :
    AccInv (settle { s with isResolved := true } (.resolved s.result)) := by
  refine ⟨by simpa using h.ro, by simpa using h.tlen, by simpa using h.enqLt,
    by simpa using h.runLt, by simpa using h.ndE, by simpa using h.ndR,
    by simpa using h.disj, by simpa using h.dom1, by simpa using h.dom2,
    by simpa using h.rlen,
    fun _ => by
      rw [settle_enqueued, settle_running]
      exact ⟨he', hr'⟩,
    ?_, ?_⟩
  · intro r hrq
    rw [settle_promiseResult] at hrq
    refine ⟨by rw [settle_isResolved], ?_⟩
    rw [settle_result]
    show r = s.result
    simp only [Option.some.injEq] at hrq
    have hrq' : s.promiseResult.getD (.resolved s.result) = .resolved r := hrq
    cases hold : s.promiseResult with
    | none =>
      rw [hold] at hrq'
      simp only [Option.getD_none, PromiseOut.resolved.injEq] at hrq'
      exact hrq'.symm
    | some po =>
      rw [hold] at hrq'
      simp only [Option.getD_some] at hrq'
      rw [hrq'] at hold
      exact (h.settledRes r hold).2
  · intro cse hrq
    rw [settle_promiseResult] at hrq
    simp only [Option.some.injEq] at hrq
    have hrq' : s.promiseResult.getD (.resolved s.result) = .rejected cse := hrq
    cases hold : s.promiseResult with
    | none =>
      rw [hold] at hrq'
      simp at hrq'
    | some po =>
      rw [hold] at hrq'
      simp only [Option.getD_some] at hrq'
      rw [hrq'] at hold
      exact h.noRej cse hold

theorem accInv_runNext {s : PoolState} (h : AccInv s) : AccInv (runNext s) := by
  simp only [runNext]
  split
  · split
    · next he =>
      have he' : s.enqueued = [] := List.isEmpty_iff.mp he
      split
      · next hr =>
        have hr' : s.running = [] := List.isEmpty_iff.mp hr
        split
        · exact accInv_resolve h he' hr'
        · exact h
      · split
        · exact accInv_emit h
        · exact h
    · next he =>
      have he' : s.enqueued ≠ [] := fun hh => he (by simp [hh])
      have hLR := launchList_append s.size s.running.length s.enqueued
      set L := (launchList s.size s.running.length s.enqueued).1 with hL
      set R := (launchList s.size s.running.length s.enqueued).2 with hR
      have hndLR : (L ++ R).Nodup := by rw [hLR]; exact h.ndE
      have hndL : L.Nodup := (List.nodup_append.mp hndLR).1
      have hndR2 : R.Nodup := (List.nodup_append.mp hndLR).2.1
      have hdisjLR : L.Disjoint R := (List.nodup_append.mp hndLR).2.2
      have hmemL : ∀ i ∈ L, i ∈ s.enqueued := fun i hi => by
        rw [← hLR]; exact List.mem_append.mpr (Or.inl hi)
      have hmemR : ∀ i ∈ R, i ∈ s.enqueued := fun i hi => by
        rw [← hLR]; exact List.mem_append.mpr (Or.inr hi)
      have hmemE : ∀ i ∈ s.enqueued, i ∈ L ∨ i ∈ R := fun i hi => by
        rw [← hLR] at hi; exact List.mem_append.mp hi
      have hinv : AccInv { s with enqueued := R, running := s.running ++ L } := by
        refine ⟨h.ro, h.tlen, ?_, ?_, hndR2, ?_, ?_, ?_, ?_, h.rlen, ?_, ?_, h.noRej⟩
        · intro i hi
          exact h.enqLt i (hmemR i hi)
        · intro i hi
          rcases List.mem_append.mp hi with hi | hi
          · exact h.runLt i hi
          · exact h.enqLt i (hmemL i hi)
        · refine List.nodup_append.mpr ⟨h.ndR, hndL, ?_⟩
          intro a ha hal
          exact h.disj a (hmemL a hal) ha
        · intro i hi hmem
          rcases List.mem_append.mp hmem with hm | hm
          · exact h.disj i (hmemR i hi) hm
          · exact hdisjLR hm hi
        · intro i hi
          apply h.dom1
          rcases hi with hi | hi
          · exact Or.inl (hmemR i hi)
          · rcases List.mem_append.mp hi with hm | hm
            · exact Or.inr hm
            · exact Or.inl (hmemL i hm)
        · intro i hci hne hnr
          apply h.dom2 i hci
          · intro hie
            rcases hmemE i hie with hm | hm
            · exact hnr (List.mem_append.mpr (Or.inr hm))
            · exact hne hm
          · intro hir
            exact hnr (List.mem_append.mpr (Or.inl hir))
        · intro hres
          exact absurd (h.resEmpty hres).1 he'
        · intro r hrq
          exact h.settledRes r hrq
      split
      · exact hinv
      · split
        · exact hinv
        · exact accInv_emit hinv
  · exact h

end PromisePool

namespace PromisePool

theorem accInv_start {s : PoolState} (h : AccInv s) : AccInv (start s) := by
  unfold start
  split
  · exact accInv_runNext h
  · exact accInv_runNext (s := { emit s .startEv with isStarted := true })
      ⟨h.ro, h.tlen, h.enqLt, h.runLt, h.ndE, h.ndR, h.disj, h.dom1, h.dom2,
       h.rlen, h.resEmpty, h.settledRes, h.noRej⟩

theorem accInv_close {s : PoolState} (h : AccInv s) : AccInv (close s) := by
  unfold close
  exact accInv_start (s := { s with isClosed := true })
    ⟨h.ro, h.tlen, h.enqLt, h.runLt, h.ndE, h.ndR, h.disj, h.dom1, h.dom2,
     h.rlen, h.resEmpty, h.settledRes, h.noRej⟩

theorem accInv_enqueue {s : PoolState} {o : TaskOutcome} {s' : PoolState}
    (h : AccInv s) (he : enqueue s o = .ok s') : AccInv s' := by
  simp only [enqueue] at he
  split at he
  · exact absurd he (by simp)
  · next hcl =>
    split at he
    · exact absurd he (by simp)
    · next hres =>
      have hres' : s.isResolved = false := by simpa using hres
      have hs1 : AccInv { s with
          tasks := s.tasks ++ [o],
          enqueued := s.enqueued ++ [s.currentIndex],
          currentIndex := s.currentIndex + 1 } := by
        refine ⟨h.ro, by simp [h.tlen], ?_, ?_, ?_, h.ndR, ?_, ?_, ?_, ?_, ?_, ?_, h.noRej⟩
        · intro i hi
          rcases List.mem_append.mp hi with hi | hi
          · exact Nat.lt_succ_of_lt (h.enqLt i hi)
          · rw [List.mem_singleton.mp hi]
            exact Nat.lt_succ_self _
        · intro i hi
          exact Nat.lt_succ_of_lt (h.runLt i hi)
        · refine List.nodup_append.mpr ⟨h.ndE, List.nodup_singleton _, ?_⟩
          intro a ha hs
          rw [List.mem_singleton.mp hs] at ha
          exact absurd (h.enqLt _ ha) (lt_irrefl _)
        · intro i hi
          rcases List.mem_append.mp hi with hi | hi
          · exact h.disj i hi
          · rw [List.mem_singleton.mp hi]
            intro hmem
            exact absurd (h.runLt _ hmem) (lt_irrefl _)
        · intro i hi
          rcases hi with hi | hi
          · rcases List.mem_append.mp hi with hi | hi
            · exact h.dom1 i (Or.inl hi)
            · rw [List.mem_singleton.mp hi]
              exact slotAt_none_of_length_le h.rlen
          · exact h.dom1 i (Or.inr hi)
        · intro i hci hne hnr
          have hine : i ∉ s.enqueued := fun hh =>
            hne (List.mem_append.mpr (Or.inl hh))
          have hii : i ≠ s.currentIndex := fun hh =>
            hne (List.mem_append.mpr (Or.inr (by rw [hh]; exact List.mem_singleton_self _)))
          have hci' : i < s.currentIndex := by
            rcases Nat.lt_succ_iff_lt_or_eq.mp hci with hh | hh
            · exact hh
            · exact absurd hh hii
          have := h.dom2 i hci' hine hnr
          rw [this]
          rw [getD_append_lt (by rw [h.tlen]; exact hci')]
        · exact h.rlen.trans (Nat.le_succ _)
        · intro hr
          exact absurd hr (by simp [hres'])
        · intro r hrq
          exact absurd (h.settledRes r hrq).1 (by simp [hres'])
      split at he
      · cases he
        exact accInv_start hs1
      · split at he
        · cases he
          exact accInv_runNext hs1
        · cases he
          exact hs1

theorem accInv_promiseDone {s : PoolState} {i v : Nat} (h : AccInv s)
    (hv : s.tasks.get? i = some (.success v)) :
    AccInv (promiseDone s i v) := by
  unfold promiseDone
  split
  · exact h
  · next hres =>
    split
    · next hmem =>
      apply accInv_runNext
      apply accInv_emit
      have hilt : i < s.currentIndex := h.runLt i hmem
      have hinotE : i ∉ s.enqueued := fun hie => h.disj i hie hmem
      refine ⟨h.ro, h.tlen, h.enqLt, ?_, h.ndE, h.ndR.erase i, ?_, ?_, ?_, ?_, ?_, ?_, h.noRej⟩
      · intro j hj
        exact h.runLt j (List.mem_of_mem_erase hj)
      · intro j hj hjm
        exact h.disj j hj (List.mem_of_mem_erase hjm)
      · intro j hj
        have hji : j ≠ i := by
          rcases hj with hj | hj
          · intro hh; rw [hh] at hj; exact hinotE hj
          · exact ((List.Nodup.mem_erase_iff h.ndR).mp hj).1
        rw [slotAt_setSlot_ne _ _ _ hji]
        apply h.dom1
        rcases hj with hj | hj
        · exact Or.inl hj
        · exact Or.inr (List.mem_of_mem_erase hj)
      · intro j hci hne hnr
        by_cases hji : j = i
        · subst hji
          rw [slotAt_setSlot_self, tasks_getD_of_get? hv]
          rfl
        · have hjr : j ∉ s.running := fun hjm =>
            hnr ((List.Nodup.mem_erase_iff h.ndR).mpr ⟨hji, hjm⟩)
          rw [slotAt_setSlot_ne _ _ _ hji]
          exact h.dom2 j hci hne hjr
      · rw [setSlot_length]
        show max s.result.length (i + 1) ≤ s.currentIndex
        have := h.rlen
        omega
      · intro hr
        exact absurd hr hres
      · intro r hrq
        exact absurd (h.settledRes r hrq).1 hres
    · exact h

theorem accInv_promiseRejected {s : PoolState} {i c : Nat} (h : AccInv s)
    (hv : s.tasks.get? i = some (.failure c)) :
    AccInv (promiseRejected s i c) := by
  simp only [promiseRejected]
  split
  · exact h
  · next hres =>
    split
    · next hmem =>
      split
      · next hro => exact absurd hro (by simp [h.ro])
      · apply accInv_runNext
        apply accInv_emit
        have hilt : i < s.currentIndex := h.runLt i hmem
        have hinotE : i ∉ s.enqueued := fun hie => h.disj i hie hmem
        refine ⟨h.ro, h.tlen, h.enqLt, ?_, h.ndE, h.ndR.erase i, ?_, ?_, ?_, ?_, ?_, ?_, h.noRej⟩
        · intro j hj
          exact h.runLt j (List.mem_of_mem_erase hj)
        · intro j hj hjm
          exact h.disj j hj (List.mem_of_mem_erase hjm)
        · intro j hj
          have hji : j ≠ i := by
            rcases hj with hj | hj
            · intro hh; rw [hh] at hj; exact hinotE hj
            · exact ((List.Nodup.mem_erase_iff h.ndR).mp hj).1
          rw [slotAt_setSlot_ne _ _ _ hji]
          apply h.dom1
          rcases hj with hj | hj
          · exact Or.inl hj
          · exact Or.inr (List.mem_of_mem_erase hj)
        · intro j hci hne hnr
          by_cases hji : j = i
          · subst hji
            rw [slotAt_setSlot_self, tasks_getD_of_get? hv]
            rfl
          · have hjr : j ∉ s.running := fun hjm =>
              hnr ((List.Nodup.mem_erase_iff h.ndR).mpr ⟨hji, hjm⟩)
            rw [slotAt_setSlot_ne _ _ _ hji]
            exact h.dom2 j hci hne hjr
        · rw [setSlot_length]
          show max s.result.length (i + 1) ≤ s.currentIndex
          have := h.rlen
          omega
        · intro hr
          exact absurd hr hres
        · intro r hrq
          exact absurd (h.settledRes r hrq).1 hres
    · exact h

theorem accInv_complete {s : PoolState} (i : Nat) (h : AccInv s) :
    AccInv (complete s i) := by
  unfold complete
  split
  · next v hv => exact accInv_promiseDone h hv
  · next c hv => exact accInv_promiseRejected h hv
  · exact h

theorem accInv_stepAct {s : PoolState} (a : Act) (h : AccInv s) :
    AccInv (stepAct s a) := by
  cases a with
  | enq o =>
    simp only [stepAct]
    split
    · next s' he => exact accInv_enqueue h he
    · exact h
  | start => exact accInv_start h
  | close => exact accInv_close h
  | complete i => exact accInv_complete i h

theorem accInv_runActs {s : PoolState} (acts : List Act) (h : AccInv s) :
    AccInv (runActs s acts) := by
  induction acts generalizing s with
  | nil => exact h
  | cons a rest ih =>
    rw [runActs, List.foldl_cons, ← runActs]
    exact ih (accInv_stepAct a h)

end PromisePool

namespace PromisePool

/-- In accumulate mode, a resolved result handle carries one slot per
admitted task, each holding that task's own outcome slot. -/
theorem accumulate_settled_final {c : Cap} {auto : Bool} {acts : List Act}
    {r : List (Option Slot)}
    (hr : (runActs (initPool c false auto) acts).promiseResult
      = some (.resolved r)) :
    r.length = (runActs (initPool c false auto) acts).tasks.length ∧
    ∀ i o, (runActs (initPool c false auto) acts).tasks.get? i = some o →
      r.get? i = some (some (slotOf o)) := by
  have hI : AccInv (runActs (initPool c false auto) acts) :=
    accInv_runActs acts (accInv_init c auto)
  set f := runActs (initPool c false auto) acts with hf
  obtain ⟨hres, hrr⟩ := hI.settledRes r hr
  obtain ⟨henq, hrun⟩ := hI.resEmpty hres
  have hdom : ∀ i, i < f.currentIndex →
      slotAt f.result i = some (slotOf (f.tasks.getD i (.success 0))) := by
    intro i hi
    exact hI.dom2 i hi (by simp [henq]) (by simp [hrun])
  have hlen : f.result.length = f.currentIndex := by
    rcases Nat.eq_zero_or_pos f.currentIndex with h0 | hpos
    · have := hI.rlen
      omega
    · have hlast := hdom (f.currentIndex - 1) (by omega)
      have hlt : f.currentIndex - 1 < f.result.length :=
        lt_length_of_slotAt_isSome (by rw [hlast]; rfl)
      have := hI.rlen
      omega
  constructor
  · rw [hrr, hlen, hI.tlen]
  · intro i o hio
    have hilt : i < f.currentIndex := by
      rw [← hI.tlen]
      exact (List.get?_eq_some.mp hio).1
    have hslot := hdom i hilt
    rw [tasks_getD_of_get? hio] at hslot
    simp only [slotAt] at hslot
    rw [hrr]
    exact Option.join_eq_some.mp hslot

/-- C1: in accumulate mode, whenever the pool settles, the resolved
outcome sequence has one slot per admission — its length is the number
of admitted tasks — and its `i`-th slot holds the outcome of the task
that was assigned index `i` at enqueue time, for every interleaving of
completions (in particular for completions delivered out of admission
order). -/
theorem c1_outcome_sequence_ordered_by_admission (c : Cap) (auto : Bool)
    (acts : List Act) (r : List (Option Slot))
    (hr : (runActs (initPool c false auto) acts).promiseResult
      = some (.resolved r)) :
    r.length = (runActs (initPool c false auto) acts).tasks.length ∧
    ∀ i o, (runActs (initPool c false auto) acts).tasks.get? i = some o →
      r.get? i = some (some (slotOf o)) :=
  accumulate_settled_final hr

/-- Witness for C1: cap 2, two tasks completing in reverse order
(task 1 before task 0); the resolved sequence still lists task 0's
value first. -/
theorem c1_outcome_sequence_ordered_by_admission_witness :
    ([some (Slot.val 5), some (Slot.val 7)] : List (Option Slot)).length
      = (runActs (initPool (.fin 2) false true)
          [.enq (.success 5), .enq (.success 7), .close,
           .complete 1, .complete 0]).tasks.length ∧
    ([some (Slot.val 5), some (Slot.val 7)] : List (Option Slot)).get? 0
      = some (some (.val 5)) := by
  have h := c1_outcome_sequence_ordered_by_admission (.fin 2) true
    [.enq (.success 5), .enq (.success 7), .close, .complete 1, .complete 0]
    [some (.val 5), some (.val 7)] (by decide)
  exact ⟨h.1, h.2 0 (.success 5) (by decide)⟩

/-- C4: in accumulate mode task failures never reject the result
handle, and whenever the pool resolves, each failed task's index holds
the failure wrapper around that task's original cause while each
successful task's index holds its value. -/
theorem c4_accumulate_wraps_failures_in_place (c : Cap) (auto : Bool)
    (acts : List Act) :
    (∀ cause, (runActs (initPool c false auto) acts).promiseResult
      ≠ some (.rejected cause)) ∧
    (∀ r, (runActs (initPool c false auto) acts).promiseResult
        = some (.resolved r) →
      (∀ i cause, (runActs (initPool c false auto) acts).tasks.get? i
          = some (.failure cause) → r.get? i = some (some (.err cause))) ∧
      (∀ i v, (runActs (initPool c false auto) acts).tasks.get? i
          = some (.success v) → r.get? i = some (some (.val v)))) := by
  constructor
  · exact (accInv_runActs acts (accInv_init c auto)).noRej
  · intro r hr
    have h := accumulate_settled_final hr
    exact ⟨fun i cause hio => h.2 i _ hio, fun i v hio => h.2 i _ hio⟩

/-- Witness for C4 on the spec's example: five tasks with task 2
failing; the handle is not rejected, slot 2 wraps the cause, slot 0
holds its value. -/
theorem c4_accumulate_wraps_failures_in_place_witness :
    ((runActs (initPool (.fin 5) false true)
        [.enq (.success 10), .enq (.success 11), .enq (.failure 99),
         .enq (.success 13), .enq (.success 14), .close,
         .complete 2, .complete 0, .complete 4, .complete 1, .complete 3]).promiseResult
      ≠ some (.rejected 99)) ∧
    ([some (Slot.val 10), some (Slot.val 11), some (Slot.err 99),
      some (Slot.val 13), some (Slot.val 14)] : List (Option Slot)).get? 2
      = some (some (.err 99)) ∧
    ([some (Slot.val 10), some (Slot.val 11), some (Slot.err 99),
      some (Slot.val 13), some (Slot.val 14)] : List (Option Slot)).get? 0
      = some (some (.val 10)) := by
  have h := c4_accumulate_wraps_failures_in_place (.fin 5) true
    [.enq (.success 10), .enq (.success 11), .enq (.failure 99),
     .enq (.success 13), .enq (.success 14), .close,
     .complete 2, .complete 0, .complete 4, .complete 1, .complete 3]
  have h2 := h.2 [some (.val 10), some (.val 11), some (.err 99),
    some (.val 13), some (.val 14)] (by decide)
  exact ⟨h.1 99, h2.1 2 99 (by decide), h2.2 0 10 (by decide)⟩

end PromisePool
